import Mathlib

/-!
Verification of the distributed-gather utilities and the generation-stage
post-processing of this repository: shallow embeddings of
src/utils/dist_utils.py and src/generate_stage1.py, together with theorems
about them.

Modelling conventions:
* Python byte strings are `List Nat` with every element below 256.
* `pickle.dumps` / `pickle.loads` are library code, modelled as an abstract
  encode / decode pair; theorems take the round-trip property as a
  hypothesis.  Pickled encodings are never empty, which the theorems record
  as the hypothesis `0 < (encode d).length`.
* torch.distributed collectives are modelled at the level of the whole
  worker family: a function receives the list of every rank's local input
  and returns what every rank observes after the collective.  The all-reduce
  on a uint8 (byte) tensor is element-wise addition modulo 256.
* Exceptions are `Except String`, the string naming the Python exception
  class that is raised.
-/

/-! ### src/utils/dist_utils.py : rank and world-size helpers

torch.distributed availability and state are modelled by two booleans
(`avail` for `dist.is_available()`, `initd` for `dist.is_initialized()`)
together with the values `dist.get_rank()` and `dist.get_world_size()`
would return when the process group is up. -/

/-- `get_rank` from src/utils/dist_utils.py. -/
def get_rank (avail initd : Bool) (dist_rank : Int) : Int :=
  if !avail then -1
  else if !initd then -1
  else dist_rank

/-- `get_world_size` from src/utils/dist_utils.py. -/
def get_world_size (avail initd : Bool) (dist_world_size : Nat) : Nat :=
  if !avail then 1
  else if !initd then 1
  else dist_world_size

/-- `is_local_master` from src/utils/dist_utils.py: `get_rank() in [-1, 0]`. -/
def is_local_master (avail initd : Bool) (dist_rank : Int) : Bool :=
  get_rank avail initd dist_rank == -1 || get_rank avail initd dist_rank == 0

/-! ### Big-endian size headers (`int.to_bytes` / `int.from_bytes`) -/

/-- `n.to_bytes(w, byteorder='big')`: the `w`-byte big-endian encoding of `n`
(as used for the 4-byte size header of `all_gather_list`). -/
def toBytesBE : Nat → Nat → List Nat
  | 0, _ => []
  | w + 1, n => toBytesBE w (n / 256) ++ [n % 256]

/-- `int.from_bytes(bs, byteorder='big')`. -/
def fromBytesBE (bs : List Nat) : Nat :=
  bs.foldl (fun acc b => acc * 256 + b) 0

/-! ### `all_gather_list` from src/utils/dist_utils.py

The function packs, on each rank, a 4-byte big-endian size header followed
by the rank's pickled payload at offset `rank * max_size` of a zeroed byte
buffer of `max_size * world_size` bytes, sums the buffers of all ranks with
an all-reduce, and unpacks every non-empty slot of the summed buffer. -/

/-- The list of per-rank gather buffers, ranks numbered from `r` upwards:
rank `r` holds the 4-byte size header followed by its encoded payload at
offset `r * max_size` of an otherwise zero buffer of
`max_size * world_size` bytes. -/
def rankBuffersFrom (max_size world_size : Nat) : Nat → List (List Nat) → List (List Nat)
  | _, [] => []
  | r, enc :: rest =>
    (List.replicate (r * max_size) 0
        ++ toBytesBE 4 enc.length ++ enc
        ++ List.replicate (max_size * world_size - r * max_size - (enc.length + 4)) 0)
      :: rankBuffersFrom max_size world_size (r + 1) rest

/-- Element-wise byte addition: the all-reduce SUM on a byte (uint8) tensor
wraps modulo 256. -/
def addBytes (a b : List Nat) : List Nat :=
  List.zipWith (fun x y => (x + y) % 256) a b

/-- One iteration of the unpacking loop of `all_gather_list`: slice slot `i`
out of the reduced buffer, decode its 4-byte size header, and when the size
is positive produce the payload bytes `out_buffer[4 : size + 4]`. -/
def unpackItem (max_size : Nat) (buffer : List Nat) (i : Nat) : List (List Nat) :=
  let out_buffer := (buffer.drop (i * max_size)).take max_size
  let size := fromBytesBE (out_buffer.take 4)
  if 0 < size then [(out_buffer.drop 4).take size] else []

/-- The unpacking loop of `all_gather_list`: `result` starts empty and slot
`i`'s payload is appended whenever its size header is positive. -/
def unpackLoop (max_size world_size : Nat) (buffer : List Nat) : List (List Nat) :=
  (List.range world_size).foldl (fun result i => result ++ unpackItem max_size buffer i) []

/-- `all_gather_list`, at the level of the whole worker family: `encs` lists
each rank's pickled payload in rank order (so `world_size = encs.length`).
A rank whose payload overflows its slot raises `ValueError`; a rank whose
payload does not fit in the 4-byte header fails the
`assert enc_size < 256 ** SIZE_STORAGE_BYTES`.  Otherwise every rank writes
its slot, the buffers are summed element-wise by the all-reduce, and the
loop unpacks each slot of the reduced buffer. -/
def all_gather_list (max_size : Nat) (encs : List (List Nat)) :
    Except String (List (List Nat)) :=
  if encs.any fun enc => max_size < enc.length + 4 then
    Except.error "ValueError"
  else if encs.any fun enc => 256 ^ 4 ≤ enc.length then
    Except.error "AssertionError"
  else
    let world_size := encs.length
    let buffer := (rankBuffersFrom max_size world_size 0 encs).foldl addBytes
      (List.replicate (max_size * world_size) 0)
    Except.ok (unpackLoop max_size world_size buffer)

/-- `all_gather_list` at the level of Python objects: the gathered byte
payloads are decoded (`pickle.loads`, modelled by `dec`). -/
def all_gather_list_data {α : Type} (dec : List Nat → α) (max_size : Nat)
    (encs : List (List Nat)) : Except String (List α) :=
  (all_gather_list max_size encs).map (List.map dec)

/-- The content of one slot of the reduced gather buffer: size header,
payload, zero padding up to `max_size` bytes. -/
def slotContent (max_size : Nat) (enc : List Nat) : List Nat :=
  toBytesBE 4 enc.length ++ enc ++ List.replicate (max_size - (enc.length + 4)) 0

/-- One rank's call of `all_gather_list` up to the point where the collective
starts, keeping track of the persistent buffer (`all_gather_list._buffer`,
modelled by its element count `buffer_numel`, `none` before the first
allocation).  The `ValueError` size check precedes the buffer allocation and
zeroing; the assert on the 4-byte header follows them. -/
def all_gather_list_local (max_size : Nat) (enc : List Nat) (buffer_numel : Option Nat)
    (world_size : Nat) : Except String Unit × Option Nat :=
  if max_size < enc.length + 4 then
    (Except.error "ValueError", buffer_numel)
  else
    let buffer_size := max_size * world_size
    let new_numel :=
      match buffer_numel with
      | none => buffer_size
      | some n => if n < buffer_size then buffer_size else n
    if 256 ^ 4 ≤ enc.length then (Except.error "AssertionError", some new_numel)
    else (Except.ok (), some new_numel)

/-! ### `all_gather` from src/utils/dist_utils.py

A tensor of first-dimension size `s` (and arbitrary common trailing
dimensions) is modelled as a `List α` of length `s`, an element of `α`
standing for one slice along the first dimension; `pad` models a zero
slice.  `datas` lists each rank's local tensor in rank order. -/

/-- `all_gather`, at the level of the whole worker family.  With one worker
the input is returned as a singleton.  Otherwise the first-dimension sizes
are gathered, every tensor is padded with zeros to the common size
`max(size_list) + 1`, the padded tensors are gathered, and each gathered
tensor is truncated back to its true size. -/
def all_gather {α : Type} (datas : List (List α)) (pad : α) : List (List α) :=
  if datas.length = 1 then datas
  else
    let size_list := datas.map List.length
    let max_size := size_list.foldr max 0 + 1
    let tensor_list := datas.map fun d => d ++ List.replicate (max_size - d.length) pad
    (size_list.zip tensor_list).map fun st => st.2.take st.1

/-! ### src/generate_stage1.py : `ModelTrainer.validate` generation calls -/

/-- The keyword arguments that `ModelTrainer.validate` passes to
`model.generate`; `none` means the argument is not passed and the library
default applies. -/
structure GenerateArgs where
  max_length : Option Nat
  num_beams : Option Nat
  num_return_sequences : Option Nat
  deriving DecidableEq

/-- The arguments of the `model.generate` call of `ModelTrainer.validate`,
as a function of `args.local_rank`: the distributed branch
(`local_rank != -1`) passes only `max_length=64`, the non-distributed branch
passes `max_length=64, num_beams=1, num_return_sequences=1`. -/
def validate_generate_args (local_rank : Int) : GenerateArgs :=
  if local_rank ≠ -1 then
    { max_length := some 64, num_beams := none, num_return_sequences := none }
  else
    { max_length := some 64, num_beams := some 1, num_return_sequences := some 1 }

/-! ### src/generate_stage1.py : `post_process`

Python strings are modelled as `List Char`.  `reader.term_ids` (built by
`DatasetReader`, whose source is outside src/) is modelled from the spec as
a fixed medical vocabulary: a finite map from terms to term identifiers,
given as an association list with distinct keys (it is a Python dict). -/

/-- Whether `pat` is a prefix of `s` (character lists). -/
def startsWithSeq : List Char → List Char → Bool
  | [], _ => true
  | _ :: _, [] => false
  | p :: ps, c :: cs => p == c && startsWithSeq ps cs

/-- The Python substring test `pat in s` for strings: `pat` occurs
contiguously in `s` (the empty string occurs in every string). -/
def containsSeq (pat : List Char) : List Char → Bool
  | [] => pat.isEmpty
  | c :: cs => startsWithSeq pat (c :: cs) || containsSeq pat cs

/-- Python `s.split(sep)` for a one-character separator: split at every
occurrence of `sep`, keeping empty segments (`''.split(sep) == ['']`). -/
def splitOnChar (sep : Char) : List Char → List (List Char)
  | [] => [[]]
  | c :: rest =>
    if c = sep then [] :: splitOnChar sep rest
    else
      match splitOnChar sep rest with
      | [] => [[c]]
      | t :: ts => (c :: t) :: ts

/-- The matching loop of `post_process`: a segment that is itself a
vocabulary term is kept; otherwise every vocabulary term occurring as a
substring of the segment is kept (in vocabulary order). -/
def matchTerms (all_terms : List (List Char)) (generated_terms : List (List Char)) :
    List (List Char) :=
  generated_terms.flatMap fun term =>
    if term ∈ all_terms then [term]
    else all_terms.filter fun t => containsSeq t term

/-- `reader.term_ids[term]`: dict lookup in the vocabulary, modelled as
first-match lookup in the association list (the keys are distinct). -/
def lookupTermId : List (List Char × Nat) → List Char → Nat
  | [], _ => 0
  | (k, v) :: rest, t => if t = k then v else lookupTermId rest t

/-- The body of the `for predict in predicts` loop of `post_process`: spaces
are removed from the generated text, the result is split on '，', segments
are matched against the vocabulary, matched terms are deduplicated
(`list(set(...))`, modelled by `List.dedup`; the claim is order-independent)
and mapped to `[dial_id, window_id, term_id]` triples. -/
def processOne (vocab : List (List Char × Nat)) :
    List Char × Int × Int × Int → List (Int × Int × Nat)
  | (generated_text, dial_id, window_id, _) =>
    let generated_terms := splitOnChar '，' (generated_text.filter (· != ' '))
    let generated_term_list := (matchTerms (vocab.map Prod.fst) generated_terms).dedup
    generated_term_list.map fun term => (dial_id, window_id, lookupTermId vocab term)

/-- `post_process` from src/generate_stage1.py. -/
def post_process (vocab : List (List Char × Nat))
    (predicts : List (List Char × Int × Int × Int)) : List (Int × Int × Nat) :=
  (predicts.map (processOne vocab)).flatten

/-- Following the spec's words: term `t` is matched for a generated text
when `t` is one of the segments obtained by removing spaces and splitting
on '，' and `t` is in the vocabulary, or `t` is a vocabulary term that is a
substring of a segment that is not itself in the vocabulary. -/
def specTermMatch (all_terms : List (List Char)) (generated_text : List Char)
    (t : List Char) : Prop :=
  ∃ seg ∈ splitOnChar '，' (generated_text.filter (· != ' ')),
    (t = seg ∧ t ∈ all_terms) ∨
    (t ∈ all_terms ∧ containsSeq t seg = true ∧ seg ∉ all_terms)

/-! ### src/generate_stage1.py : `ModelTrainer.__init__` and `main`

The tokenizer is modelled by its vocabulary (a list of distinct token
strings), the model by the size of its token-embedding matrix and by its
parameter state dict (an association list from parameter names to values).
`tokenizer.add_special_tokens`, `model.resize_token_embeddings` and
`model.load_state_dict` are library code, modelled from their documented
behaviour: adding a special token appends it unless already present,
resizing sets the embedding size, and a (strict) state-dict load replaces
every parameter by the loaded value of the same name. -/

/-- `tokenizer.add_special_tokens({'additional_special_tokens': [tok]})`:
the token is appended to the vocabulary unless already present. -/
def add_special_token (vocab : List String) (tok : String) : List String :=
  if tok ∈ vocab then vocab else vocab ++ [tok]

/-- The embedding-size logic of `ModelTrainer.__init__`: the tokenizer is
extended with 'possible_statues', and the embedding is resized to
`len(tokenizer)` exactly when `cfg.vocab_size` differs from it.  Returns
the final embedding size and whether a resize happened; `pretrained_emb`
is the embedding size of the freshly loaded pretrained model. -/
def trainer_init_embedding (base_vocab : List String) (cfg_vocab_size pretrained_emb : Nat) :
    Nat × Bool :=
  let tok_len := (add_special_token base_vocab "possible_statues").length
  if cfg_vocab_size ≠ tok_len then (tok_len, true) else (pretrained_emb, false)

/-- First-match lookup of a parameter name in a state dict. -/
def lookupParam {α : Type} : List (String × α) → String → Option α
  | [], _ => none
  | (k, v) :: rest, t => if t = k then some v else lookupParam rest t

/-- `model.load_state_dict(sd)`: every parameter of the model takes the
value stored in `sd` under its name (kept unchanged when the name is
absent, which a strict load rules out). -/
def load_state_dict {α : Type} (params sd : List (String × α)) : List (String × α) :=
  params.map fun kv => (kv.1, (lookupParam sd kv.1).getD kv.2)

/-- The checkpoint paths used by `main`: iteration `i in range(0, 4)` sets
`args.model_recover_path = args.model_recover_dir.format(i)` (string
formatting modelled by the abstract function `fmt`). -/
def recover_paths (fmt : Nat → String) : List String :=
  (List.range 4).map fmt

/-! ## Lemmas about the 4-byte big-endian size header -/

theorem toBytesBE_length (w n : Nat) : (toBytesBE w n).length = w := by
  induction w generalizing n with
  | zero => rfl
  | succ w ih => simp [toBytesBE, ih]

theorem toBytesBE_lt (w n : Nat) : ∀ b ∈ toBytesBE w n, b < 256 := by
  induction w generalizing n with
  | zero => intro b hb; simp [toBytesBE] at hb
  | succ w ih =>
    intro b hb
    simp only [toBytesBE, List.mem_append, List.mem_singleton] at hb
    rcases hb with hb | hb
    · exact ih _ b hb
    · subst hb; exact Nat.mod_lt _ (by norm_num)

theorem fromBytesBE_toBytesBE (w n : Nat) (h : n < 256 ^ w) :
    fromBytesBE (toBytesBE w n) = n := by
  induction w generalizing n with
  | zero =>
    have hn : n = 0 := by simpa using h
    subst hn; rfl
  | succ w ih =>
    have hd : n / 256 < 256 ^ w := by
      rw [Nat.div_lt_iff_lt_mul (by norm_num)]
      calc n < 256 ^ (w + 1) := h
        _ = 256 ^ w * 256 := by ring
    have hrec := ih (n / 256) hd
    simp only [toBytesBE, fromBytesBE, List.foldl_append, List.foldl_cons, List.foldl_nil]
    simp only [fromBytesBE] at hrec
    rw [hrec]
    omega

/-- Claim C3: encoding a natural number below `256 ^ 4` as 4 big-endian
bytes and decoding them again is the identity; consequently the size header
at the start of a rank's slot decodes to exactly that rank's encoded
payload length. -/
theorem size_header_roundtrip :
    (∀ n : Nat, n < 256 ^ 4 → fromBytesBE (toBytesBE 4 n) = n) ∧
    ∀ (max_size : Nat) (enc : List Nat), enc.length < 256 ^ 4 →
      fromBytesBE ((slotContent max_size enc).take 4) = enc.length := by
  constructor
  · exact fun n h => fromBytesBE_toBytesBE 4 n h
  · intro max_size enc h
    have h4 : (toBytesBE 4 enc.length).length = 4 := toBytesBE_length 4 _
    rw [slotContent, List.append_assoc, List.take_left' h4,
      fromBytesBE_toBytesBE 4 _ h]

/-- Witness for C3 at concrete inputs. -/
theorem size_header_roundtrip_witness :
    ((305419896 : Nat) < 256 ^ 4 ∧
      fromBytesBE (toBytesBE 4 305419896) = 305419896) ∧
    ([(7 : Nat), 9].length < 256 ^ 4 ∧
      fromBytesBE ((slotContent 10 [(7 : Nat), 9]).take 4) = [(7 : Nat), 9].length) :=
  ⟨⟨by norm_num, size_header_roundtrip.1 305419896 (by norm_num)⟩,
   ⟨by decide, size_header_roundtrip.2 10 [7, 9] (by decide)⟩⟩

/-! ## Claims about the rank helpers (C10) -/

/-- Claim C10: whenever torch.distributed is unavailable or not
initialized, `get_rank` returns -1, `get_world_size` returns 1 and
`is_local_master` returns True; in general `is_local_master` returns True
iff `get_rank` returns -1 or 0. -/
theorem dist_rank_defaults (avail initd : Bool) (dist_rank : Int) (dist_world_size : Nat) :
    (¬(avail = true ∧ initd = true) →
      get_rank avail initd dist_rank = -1 ∧
      get_world_size avail initd dist_world_size = 1 ∧
      is_local_master avail initd dist_rank = true) ∧
    (is_local_master avail initd dist_rank = true ↔
      get_rank avail initd dist_rank = -1 ∨ get_rank avail initd dist_rank = 0) := by
  cases avail <;> cases initd <;>
    simp [get_rank, get_world_size, is_local_master]

/-- Witness for C10: torch.distributed unavailable. -/
theorem dist_rank_defaults_witness :
    ¬((false = true) ∧ (false = true)) ∧
    (get_rank false false 5 = -1 ∧ get_world_size false false 3 = 1 ∧
      is_local_master false false 5 = true) :=
  ⟨by decide, (dist_rank_defaults false false 5 3).1 (by decide)⟩

/-! ## Claims about the generate call of ModelTrainer.validate (C4) -/

/-- Counterexample to C4 as stated: in the distributed branch
(`local_rank != -1`, here `local_rank = 0`) the `model.generate` call does
not pass `num_beams = 1` nor `num_return_sequences = 1`. -/
theorem validate_generate_args_counterexample :
    (validate_generate_args 0).num_beams ≠ some 1 ∧
    (validate_generate_args 0).num_return_sequences ≠ some 1 := by
  decide

/-- Claim C4, amended: both branches request `max_length = 64`; the
non-distributed branch (`local_rank = -1`) additionally requests
`num_beams = 1` and `num_return_sequences = 1`, while the distributed
branch passes neither, leaving them to the library defaults. -/
theorem validate_generate_args_amended (local_rank : Int) :
    (validate_generate_args local_rank).max_length = some 64 ∧
    (local_rank = -1 →
      (validate_generate_args local_rank).num_beams = some 1 ∧
      (validate_generate_args local_rank).num_return_sequences = some 1) ∧
    (local_rank ≠ -1 →
      (validate_generate_args local_rank).num_beams = none ∧
      (validate_generate_args local_rank).num_return_sequences = none) := by
  by_cases h : local_rank = -1 <;> simp [validate_generate_args, h]

/-- Witness for the amended C4 in both branches. -/
theorem validate_generate_args_amended_witness :
    (validate_generate_args (-1)).num_beams = some 1 ∧
    (validate_generate_args (-1)).num_return_sequences = some 1 ∧
    (validate_generate_args 0).num_beams = none ∧
    (validate_generate_args 0).max_length = some 64 :=
  ⟨((validate_generate_args_amended (-1)).2.1 rfl).1,
   ((validate_generate_args_amended (-1)).2.1 rfl).2,
   ((validate_generate_args_amended 0).2.2 (by decide)).1,
   (validate_generate_args_amended 0).1⟩

/-! ## Claim about all_gather (C5) -/

/-- Claim C5: `all_gather` returns every rank's input tensor truncated back
to its original first-dimension size (the padding up to
`max(size_list) + 1` is stripped); with world size 1 it returns the input
as a singleton list. -/
theorem all_gather_strips_padding {α : Type} (datas : List (List α)) (pad : α) :
    all_gather datas pad = datas := by
  unfold all_gather
  by_cases h : datas.length = 1
  · rw [if_pos h]
  · rw [if_neg h]
    simp only [List.zip_map', List.map_map]
    have hmap : ∀ d ∈ datas,
        ((fun st : Nat × List α => st.2.take st.1) ∘
          fun d => (d.length,
            d ++ List.replicate ((datas.map List.length).foldr max 0 + 1 - d.length) pad)) d
          = d := by
      intro d _
      simp only [Function.comp_apply]
      exact List.take_left d _
    rw [List.map_congr_left hmap]
    exact List.map_id' datas

/-! ## Claims about ModelTrainer.__init__ (C6, C7) -/

/-- Claim C6: the tokenizer is extended with the special token
'possible_statues'; the embedding is resized exactly when the pretrained
configuration's `vocab_size` differs from the extended tokenizer's length,
and afterwards the embedding size equals `len(tokenizer)` (hypothesis: the
freshly loaded pretrained model's embedding size matches its
configuration). -/
theorem trainer_embedding_resize (base_vocab : List String)
    (cfg_vocab_size pretrained_emb : Nat) (h : pretrained_emb = cfg_vocab_size) :
    "possible_statues" ∈ add_special_token base_vocab "possible_statues" ∧
    ((trainer_init_embedding base_vocab cfg_vocab_size pretrained_emb).2 = true ↔
      cfg_vocab_size ≠ (add_special_token base_vocab "possible_statues").length) ∧
    (trainer_init_embedding base_vocab cfg_vocab_size pretrained_emb).1 =
      (add_special_token base_vocab "possible_statues").length := by
  subst h
  refine ⟨?_, ?_, ?_⟩
  · unfold add_special_token
    by_cases hv : "possible_statues" ∈ base_vocab
    · rw [if_pos hv]; exact hv
    · rw [if_neg hv]; simp
  · unfold trainer_init_embedding
    by_cases he : pretrained_emb = (add_special_token base_vocab "possible_statues").length <;>
      simp [he]
  · unfold trainer_init_embedding
    by_cases he : pretrained_emb = (add_special_token base_vocab "possible_statues").length <;>
      simp [he]

/-- Witness for C6 at a concrete vocabulary where the resize fires. -/
theorem trainer_embedding_resize_witness :
    (1 : Nat) = 1 ∧
    ("possible_statues" ∈ add_special_token ["x"] "possible_statues" ∧
      ((trainer_init_embedding ["x"] 1 1).2 = true ↔
        1 ≠ (add_special_token ["x"] "possible_statues").length) ∧
      (trainer_init_embedding ["x"] 1 1).1 =
        (add_special_token ["x"] "possible_statues").length) :=
  ⟨rfl, trainer_embedding_resize ["x"] 1 1 rfl⟩

theorem load_state_dict_eq {α : Type} :
    ∀ params sd : List (String × α),
      params.map Prod.fst = sd.map Prod.fst → (sd.map Prod.fst).Nodup →
      load_state_dict params sd = sd := by
  intro params
  induction params with
  | nil =>
    intro sd hk _
    cases sd with
    | nil => rfl
    | cons q qs => simp at hk
  | cons p ps ih =>
    intro sd hk hnd
    cases sd with
    | nil => simp at hk
    | cons q qs =>
      obtain ⟨p1, p2⟩ := p
      obtain ⟨q1, q2⟩ := q
      simp only [List.map_cons, List.cons.injEq] at hk
      obtain ⟨hkey, htail⟩ := hk
      subst hkey
      simp only [List.map_cons, List.nodup_cons] at hnd
      obtain ⟨hq1, hnd'⟩ := hnd
      have hhead : lookupParam ((p1, q2) :: qs) p1 = some q2 := by
        simp [lookupParam]
      have hstep : ∀ kv ∈ ps,
          (kv.1, (lookupParam ((p1, q2) :: qs) kv.1).getD kv.2)
            = (kv.1, (lookupParam qs kv.1).getD kv.2) := by
        intro kv hkv
        have h1 : kv.1 ∈ qs.map Prod.fst := by
          rw [← htail]; exact List.mem_map_of_mem Prod.fst hkv
        have hne : kv.1 ≠ p1 := fun he => hq1 (he ▸ h1)
        simp [lookupParam, hne]
      show (p1, (lookupParam ((p1, q2) :: qs) p1).getD p2) ::
          ps.map (fun kv => (kv.1, (lookupParam ((p1, q2) :: qs) kv.1).getD kv.2))
        = (p1, q2) :: qs
      rw [hhead, List.map_congr_left hstep]
      exact congrArg _ (ih qs htail hnd')

/-- Claim C7: after `ModelTrainer.__init__` the model's parameters equal
the state dict loaded from `args.model_recover_path` (a strict
`load_state_dict` replaces every parameter), and `main` sets
`model_recover_path` by formatting `model_recover_dir` with each
`i in range(0, 4)` in turn. -/
theorem checkpoint_recovery {α : Type} (params sd : List (String × α)) (fmt : Nat → String)
    (hkeys : params.map Prod.fst = sd.map Prod.fst)
    (hnodup : (sd.map Prod.fst).Nodup) :
    load_state_dict params sd = sd ∧
    recover_paths fmt = [fmt 0, fmt 1, fmt 2, fmt 3] :=
  ⟨load_state_dict_eq params sd hkeys hnodup, rfl⟩

/-- Witness for C7 at a concrete one-parameter model. -/
theorem checkpoint_recovery_witness :
    ([("w", (0 : Int))].map Prod.fst = [("w", (5 : Int))].map Prod.fst ∧
      (([("w", (5 : Int))].map Prod.fst).Nodup)) ∧
    (load_state_dict [("w", (0 : Int))] [("w", (5 : Int))] = [("w", (5 : Int))] ∧
      recover_paths (fun _ => "m") = ["m", "m", "m", "m"]) :=
  ⟨⟨rfl, by decide⟩,
   checkpoint_recovery [("w", (0 : Int))] [("w", (5 : Int))] (fun _ => "m") rfl (by decide)⟩

/-! ## Claims about the error paths of all_gather_list (C8, C9) -/

/-- Claim C8: one rank's `all_gather_list` raises `ValueError` iff the
pickled payload plus the 4-byte header exceeds `max_size`, and on that
error the persistent buffer state is unchanged (the check precedes the
buffer allocation and zeroing). -/
theorem value_error_iff (max_size : Nat) (enc : List Nat) (buffer_numel : Option Nat)
    (world_size : Nat) :
    ((all_gather_list_local max_size enc buffer_numel world_size).1 =
        Except.error "ValueError" ↔ max_size < enc.length + 4) ∧
    (max_size < enc.length + 4 →
      (all_gather_list_local max_size enc buffer_numel world_size).2 = buffer_numel) := by
  unfold all_gather_list_local
  by_cases h : max_size < enc.length + 4
  · simp [h]
  · have hpow : (256 : Nat) ^ 4 = 4294967296 := by norm_num
    by_cases h2 : (4294967296 : Nat) ≤ enc.length
    · simp [h, hpow, h2]
    · simp [h, hpow, h2]

/-- Witness for C8: a payload of 2 bytes with `max_size = 5` raises, and
the buffer state (here: not yet allocated) is untouched. -/
theorem value_error_iff_witness :
    (5 : Nat) < [(0 : Nat), 0].length + 4 ∧
    (all_gather_list_local 5 [0, 0] none 1).1 = Except.error "ValueError" ∧
    (all_gather_list_local 5 [0, 0] none 1).2 = none :=
  ⟨by decide, (value_error_iff 5 [0, 0] none 1).1.mpr (by decide),
    (value_error_iff 5 [0, 0] none 1).2 (by decide)⟩

/-- Claim C9: for `max_size ≤ 256 ^ 4`, a rank that passes the `ValueError`
size check can never fail the `assert enc_size < 256 ** 4` (and the
`ValueError` path is not an assertion failure either), so the assert branch
is unreachable — in particular for the default `max_size = 16384`. -/
theorem assert_unreachable (max_size : Nat) (enc : List Nat) (buffer_numel : Option Nat)
    (world_size : Nat) (h : max_size ≤ 256 ^ 4) :
    (all_gather_list_local max_size enc buffer_numel world_size).1 ≠
      Except.error "AssertionError" := by
  unfold all_gather_list_local
  by_cases h1 : max_size < enc.length + 4
  · rw [if_pos h1]
    intro hc
    injection hc with hs
    exact absurd hs (by decide)
  · have hpow : (256 : Nat) ^ 4 = 4294967296 := by norm_num
    have h2 : ¬ (256 ^ 4 ≤ enc.length) := by omega
    rw [if_neg h1]
    simp only [h2, if_false]
    simp

/-- Witness for C9 at the default `max_size = 16384`. -/
theorem assert_unreachable_witness :
    (16384 : Nat) ≤ 256 ^ 4 ∧
    (all_gather_list_local 16384 [0] none 1).1 ≠ Except.error "AssertionError" :=
  ⟨by decide, assert_unreachable 16384 [0] none 1 (by decide)⟩

/-! ## Claim about post_process (C2) -/

theorem mem_matchTerms (A gens : List (List Char)) (t : List Char) :
    t ∈ matchTerms A gens ↔
      ∃ seg ∈ gens,
        (t = seg ∧ t ∈ A) ∨ (t ∈ A ∧ containsSeq t seg = true ∧ seg ∉ A) := by
  unfold matchTerms
  rw [List.mem_flatMap]
  refine exists_congr fun seg => and_congr_right fun _ => ?_
  by_cases hA : seg ∈ A
  · rw [if_pos hA, List.mem_singleton]
    constructor
    · intro h; exact Or.inl ⟨h, h ▸ hA⟩
    · rintro (⟨h, _⟩ | ⟨_, _, hn⟩)
      · exact h
      · exact absurd hA hn
  · rw [if_neg hA, List.mem_filter]
    constructor
    · rintro ⟨h1, h2⟩; exact Or.inr ⟨h1, h2, hA⟩
    · rintro (⟨heq, hmem⟩ | ⟨h1, h2, _⟩)
      · exact absurd (heq ▸ hmem) hA
      · exact ⟨h1, h2⟩

theorem matchTerms_mem_keys (A gens : List (List Char)) (t : List Char)
    (h : t ∈ matchTerms A gens) : t ∈ A := by
  rw [mem_matchTerms] at h
  rcases h with ⟨seg, _, ⟨_, hm⟩ | ⟨hm, _, _⟩⟩ <;> exact hm

theorem specTermMatch_iff_matchTerms (vocab_keys : List (List Char))
    (generated_text t : List Char) :
    specTermMatch vocab_keys generated_text t ↔
      t ∈ matchTerms vocab_keys (splitOnChar '，' (generated_text.filter (· != ' '))) := by
  unfold specTermMatch
  exact (mem_matchTerms _ _ _).symm

theorem lookupTermId_mem (vocab : List (List Char × Nat)) (t : List Char)
    (h : t ∈ vocab.map Prod.fst) : (t, lookupTermId vocab t) ∈ vocab := by
  induction vocab with
  | nil => simp at h
  | cons kv rest ih =>
    obtain ⟨k, v⟩ := kv
    by_cases he : t = k
    · subst he; simp [lookupTermId]
    · simp only [List.map_cons, List.mem_cons] at h
      rcases h with h | h
      · exact absurd h he
      · simp only [lookupTermId, if_neg he]
        exact List.mem_cons_of_mem _ (ih h)

theorem lookupTermId_eq (vocab : List (List Char × Nat)) (t : List Char) (i : Nat)
    (hnd : (vocab.map Prod.fst).Nodup) (h : (t, i) ∈ vocab) :
    lookupTermId vocab t = i := by
  induction vocab with
  | nil => simp at h
  | cons kv rest ih =>
    obtain ⟨k, v⟩ := kv
    simp only [List.map_cons, List.nodup_cons] at hnd
    obtain ⟨hk, hnd'⟩ := hnd
    rcases List.mem_cons.mp h with h1 | h1
    · rw [Prod.mk.injEq] at h1
      obtain ⟨rfl, rfl⟩ := h1
      simp [lookupTermId]
    · have hne : t ≠ k := by
        intro he; subst he
        exact hk (by simpa using List.mem_map_of_mem Prod.fst h1)
      simp only [lookupTermId, if_neg hne]
      exact ih hnd' h1

/-- Claim C2: for each prediction, `post_process` emits exactly the triples
`[dial_id, window_id, id]` where `id` is the vocabulary id of a term `t`
matched per the spec (a segment of the space-stripped, '，'-split generated
text that is in the vocabulary, or a vocabulary term occurring as a
substring of a segment that is not itself in the vocabulary); each id
appears at most once per prediction, no id outside the vocabulary is
emitted, and the overall output is the per-prediction outputs in order.
The vocabulary is an association list with distinct terms (a dict) and
distinct ids (identifiers of distinct terms differ). -/
theorem post_process_characterization (vocab : List (List Char × Nat))
    (predicts : List (List Char × Int × Int × Int))
    (generated_text : List Char) (dial_id window_id term_id : Int)
    (hkeys : (vocab.map Prod.fst).Nodup) (hids : (vocab.map Prod.snd).Nodup) :
    (∀ (d w : Int) (i : Nat),
      (d, w, i) ∈ processOne vocab (generated_text, dial_id, window_id, term_id) ↔
        (d = dial_id ∧ w = window_id ∧
          ∃ t, specTermMatch (vocab.map Prod.fst) generated_text t ∧ (t, i) ∈ vocab)) ∧
    ((processOne vocab (generated_text, dial_id, window_id, term_id)).map
        (fun tr => tr.2.2)).Nodup ∧
    (∀ tr ∈ processOne vocab (generated_text, dial_id, window_id, term_id),
      tr.2.2 ∈ vocab.map Prod.snd) ∧
    post_process vocab predicts = (predicts.map (processOne vocab)).flatten := by
  have hpo : processOne vocab (generated_text, dial_id, window_id, term_id)
      = (matchTerms (vocab.map Prod.fst)
          (splitOnChar '，' (generated_text.filter (· != ' ')))).dedup.map
          (fun term => (dial_id, window_id, lookupTermId vocab term)) := rfl
  refine ⟨?_, ?_, ?_, rfl⟩
  · intro d w i
    rw [hpo, List.mem_map]
    constructor
    · rintro ⟨t, ht, heq⟩
      rw [List.mem_dedup] at ht
      simp only [Prod.mk.injEq] at heq
      obtain ⟨hd, hw, hi⟩ := heq
      have htA : t ∈ vocab.map Prod.fst := matchTerms_mem_keys _ _ _ ht
      have hv := lookupTermId_mem vocab t htA
      rw [hi] at hv
      exact ⟨hd.symm, hw.symm, t, (specTermMatch_iff_matchTerms _ _ _).mpr ht, hv⟩
    · rintro ⟨rfl, rfl, t, hspec, hmem⟩
      have htM := (specTermMatch_iff_matchTerms _ _ _).mp hspec
      refine ⟨t, List.mem_dedup.mpr htM, ?_⟩
      rw [lookupTermId_eq vocab t i hkeys hmem]
  · rw [hpo, List.map_map]
    have hcomp : ((fun tr : Int × Int × Nat => tr.2.2) ∘
        fun term => (dial_id, window_id, lookupTermId vocab term))
        = fun term => lookupTermId vocab term := rfl
    rw [hcomp]
    refine List.Nodup.map_on ?_ (List.nodup_dedup _)
    intro x hx y hy hxy
    have hxA := matchTerms_mem_keys _ _ _ (List.mem_dedup.mp hx)
    have hyA := matchTerms_mem_keys _ _ _ (List.mem_dedup.mp hy)
    have hxv := lookupTermId_mem vocab x hxA
    have hyv := lookupTermId_mem vocab y hyA
    rw [hxy] at hxv
    exact congrArg Prod.fst (List.inj_on_of_nodup_map hids hxv hyv rfl)
  · intro tr htr
    rw [hpo, List.mem_map] at htr
    obtain ⟨t, ht, rfl⟩ := htr
    have htA := matchTerms_mem_keys _ _ _ (List.mem_dedup.mp ht)
    exact List.mem_map_of_mem Prod.snd (lookupTermId_mem vocab t htA)

/-- Witness for C2 at a concrete two-term vocabulary and prediction. -/
theorem post_process_characterization_witness :
    ((([(['a', 'b'], 1), (['c'], 2)] : List (List Char × Nat)).map Prod.fst).Nodup ∧
      (([(['a', 'b'], 1), (['c'], 2)] : List (List Char × Nat)).map Prod.snd).Nodup) ∧
    ((∀ (d w : Int) (i : Nat),
        (d, w, i) ∈ processOne [(['a', 'b'], 1), (['c'], 2)]
            (['a', 'b', '，', 'z', 'c', 'z'], 3, 4, 0) ↔
          (d = 3 ∧ w = 4 ∧
            ∃ t, specTermMatch
                (([(['a', 'b'], 1), (['c'], 2)] : List (List Char × Nat)).map Prod.fst)
                ['a', 'b', '，', 'z', 'c', 'z'] t ∧
              (t, i) ∈ ([(['a', 'b'], 1), (['c'], 2)] : List (List Char × Nat)))) ∧
      ((processOne [(['a', 'b'], 1), (['c'], 2)]
          (['a', 'b', '，', 'z', 'c', 'z'], 3, 4, 0)).map (fun tr => tr.2.2)).Nodup ∧
      (∀ tr ∈ processOne [(['a', 'b'], 1), (['c'], 2)]
          (['a', 'b', '，', 'z', 'c', 'z'], 3, 4, 0),
        tr.2.2 ∈ ([(['a', 'b'], 1), (['c'], 2)] : List (List Char × Nat)).map Prod.snd) ∧
      post_process [(['a', 'b'], 1), (['c'], 2)] [] =
        (([] : List (List Char × Int × Int × Int)).map
          (processOne [(['a', 'b'], 1), (['c'], 2)])).flatten) :=
  ⟨⟨by decide, by decide⟩,
   post_process_characterization [(['a', 'b'], 1), (['c'], 2)] []
     ['a', 'b', '，', 'z', 'c', 'z'] 3 4 0 (by decide) (by decide)⟩

/-! ## Claim about the all_gather_list round trip (C1)

First: element-wise byte addition of the per-rank buffers.  Each position
of the reduced buffer receives a nonzero contribution from at most one
rank, so the modulo-256 sum reconstructs every slot exactly. -/

theorem addBytes_append (a c : List Nat) (h : a.length = c.length) (b d : List Nat) :
    addBytes (a ++ b) (c ++ d) = addBytes a c ++ addBytes b d :=
  List.zipWith_append _ a b c d h

theorem addBytes_zero_left (l : List Nat) (h : ∀ b ∈ l, b < 256) :
    addBytes (List.replicate l.length 0) l = l := by
  induction l with
  | nil => rfl
  | cons x xs ih =>
    have hx : x < 256 := h x (List.mem_cons_self x xs)
    have ih' := ih fun b hb => h b (List.mem_cons_of_mem _ hb)
    show ((0 + x) % 256) :: addBytes (List.replicate xs.length 0) xs = x :: xs
    rw [Nat.zero_add, Nat.mod_eq_of_lt hx, ih']

theorem addBytes_zero_right (l : List Nat) (h : ∀ b ∈ l, b < 256) :
    addBytes l (List.replicate l.length 0) = l := by
  induction l with
  | nil => rfl
  | cons x xs ih =>
    have hx : x < 256 := h x (List.mem_cons_self x xs)
    have ih' := ih fun b hb => h b (List.mem_cons_of_mem _ hb)
    show ((x + 0) % 256) :: addBytes xs (List.replicate xs.length 0) = x :: xs
    rw [Nat.add_zero, Nat.mod_eq_of_lt hx, ih']

theorem addBytes_zeros (n : Nat) :
    addBytes (List.replicate n 0) (List.replicate n 0) = List.replicate n 0 := by
  induction n with
  | zero => rfl
  | succ n ih =>
    show ((0 + 0) % 256) :: addBytes (List.replicate n 0) (List.replicate n 0)
      = 0 :: List.replicate n 0
    rw [ih]

theorem slotContent_length (m : Nat) (enc : List Nat) (h : enc.length + 4 ≤ m) :
    (slotContent m enc).length = m := by
  simp [slotContent, toBytesBE_length]
  omega

theorem slotContent_lt (m : Nat) (enc : List Nat) (h : ∀ b ∈ enc, b < 256) :
    ∀ b ∈ slotContent m enc, b < 256 := by
  intro b hb
  simp only [slotContent, List.mem_append] at hb
  rcases hb with (hb | hb) | hb
  · exact toBytesBE_lt 4 _ b hb
  · exact h b hb
  · rcases (List.mem_replicate.mp hb) with ⟨_, rfl⟩
    norm_num

theorem reduce_aux (m : Nat) :
    ∀ (encs : List (List Nat)) (r : Nat) (done : List Nat),
      done.length = r * m →
      (∀ b ∈ done, b < 256) →
      (∀ e ∈ encs, e.length + 4 ≤ m ∧ ∀ b ∈ e, b < 256) →
      (rankBuffersFrom m (r + encs.length) r encs).foldl addBytes
          (done ++ List.replicate (encs.length * m) 0)
        = done ++ (encs.map (slotContent m)).flatten := by
  intro encs
  induction encs with
  | nil =>
    intro r done _ _ _
    simp [rankBuffersFrom]
  | cons e rest ih =>
    intro r done hlen hbytes henc
    obtain ⟨⟨he1, he2⟩, hrest⟩ := List.forall_mem_cons.mp henc
    have htail : m * (r + (e :: rest).length) - r * m - (e.length + 4)
        = (m - (e.length + 4)) + rest.length * m := by
      have h1 : m * (r + (e :: rest).length) = r * m + rest.length * m + m := by
        simp only [List.length_cons]
        ring
      omega
    have hbuf : List.replicate (r * m) (0 : Nat) ++ toBytesBE 4 e.length ++ e
          ++ List.replicate (m * (r + (e :: rest).length) - r * m - (e.length + 4)) 0
        = List.replicate (r * m) (0 : Nat)
            ++ (slotContent m e ++ List.replicate (rest.length * m) 0) := by
      rw [htail, List.replicate_add]
      simp [slotContent, List.append_assoc]
    have hinit : done ++ List.replicate ((e :: rest).length * m) (0 : Nat)
        = done ++ (List.replicate m (0 : Nat) ++ List.replicate (rest.length * m) 0) := by
      rw [← List.replicate_add]
      have : (e :: rest).length * m = m + rest.length * m := by
        simp only [List.length_cons]
        ring
      rw [this]
    have hslot_len : (slotContent m e).length = m := slotContent_length m e he1
    have hstep :
        addBytes (done ++ (List.replicate m (0 : Nat) ++ List.replicate (rest.length * m) 0))
          (List.replicate (r * m) 0 ++ (slotContent m e ++ List.replicate (rest.length * m) 0))
        = (done ++ slotContent m e) ++ List.replicate (rest.length * m) 0 := by
      rw [addBytes_append _ _ (by simp [hlen]) _ _,
        addBytes_append _ _ (by simp [hslot_len]) _ _]
      have h1 : addBytes done (List.replicate (r * m) 0) = done := by
        rw [← hlen]
        exact addBytes_zero_right done hbytes
      have h2 : addBytes (List.replicate m 0) (slotContent m e) = slotContent m e := by
        nth_rewrite 1 [← hslot_len]
        exact addBytes_zero_left _ (slotContent_lt m e he2)
      rw [h1, h2, addBytes_zeros, List.append_assoc]
    show (rankBuffersFrom m (r + (e :: rest).length) r (e :: rest)).foldl addBytes
        (done ++ List.replicate ((e :: rest).length * m) 0)
      = done ++ ((e :: rest).map (slotContent m)).flatten
    rw [rankBuffersFrom, List.foldl_cons, hinit, hbuf, hstep]
    have hws : r + (e :: rest).length = r + 1 + rest.length := by
      simp only [List.length_cons]
      omega
    rw [hws]
    have hdone_len : ((done ++ slotContent m e).length) = (r + 1) * m := by
      simp [hlen, hslot_len]
      ring
    have hdone_bytes : ∀ b ∈ done ++ slotContent m e, b < 256 := by
      intro b hb
      rcases List.mem_append.mp hb with hb | hb
      · exact hbytes b hb
      · exact slotContent_lt m e he2 b hb
    rw [ih (r + 1) (done ++ slotContent m e) hdone_len hdone_bytes hrest]
    simp [List.append_assoc]

theorem flatten_slots_drop_take (m : Nat) :
    ∀ (slots : List (List Nat)) (i : Nat), (h : i < slots.length) →
      (∀ s ∈ slots, s.length = m) →
      ((slots.flatten).drop (i * m)).take m = slots[i] := by
  intro slots
  induction slots with
  | nil =>
    intro i h
    exact absurd h (by simp)
  | cons s rest ih =>
    intro i h hall
    obtain ⟨hs, hrest⟩ := List.forall_mem_cons.mp hall
    cases i with
    | zero =>
      simp only [List.flatten_cons, Nat.zero_mul, List.drop_zero,
        List.getElem_cons_zero]
      exact List.take_left' hs
    | succ i =>
      have hi : i < rest.length := by simpa using h
      simp only [List.flatten_cons, List.getElem_cons_succ]
      have hmul : (i + 1) * m = s.length + i * m := by rw [hs]; ring
      rw [hmul, List.drop_append]
      exact ih i hi hrest

theorem unpack_foldl (m : Nat) (buffer : List Nat) :
    ∀ (idxs : List Nat) (acc : List (List Nat)),
      idxs.foldl (fun result i => result ++ unpackItem m buffer i) acc
        = acc ++ (idxs.map (unpackItem m buffer)).flatten := by
  intro idxs
  induction idxs with
  | nil => intro acc; simp
  | cons i rest ih =>
    intro acc
    simp only [List.foldl_cons, List.map_cons, List.flatten_cons]
    rw [ih]
    simp [List.append_assoc]

theorem unpackLoop_eq (m ws : Nat) (buffer : List Nat) :
    unpackLoop m ws buffer = ((List.range ws).map (unpackItem m buffer)).flatten := by
  unfold unpackLoop
  rw [unpack_foldl]
  simp

theorem unpackItem_slot (m : Nat) (encs : List (List Nat)) (i : Nat) (h : i < encs.length)
    (hv : ∀ e ∈ encs,
      0 < e.length ∧ e.length + 4 ≤ m ∧ e.length < 256 ^ 4 ∧ ∀ b ∈ e, b < 256) :
    unpackItem m ((encs.map (slotContent m)).flatten) i = [encs[i]] := by
  have hlen : ∀ s ∈ encs.map (slotContent m), s.length = m := by
    intro s hs
    rw [List.mem_map] at hs
    obtain ⟨e, he, rfl⟩ := hs
    exact slotContent_length m e (hv e he).2.1
  have hmaplen : i < (encs.map (slotContent m)).length := by
    simp only [List.length_map]
    exact h
  have hslot : (((encs.map (slotContent m)).flatten).drop (i * m)).take m
      = (encs.map (slotContent m))[i] :=
    flatten_slots_drop_take m _ i hmaplen hlen
  have hgetmap : (encs.map (slotContent m))[i] = slotContent m (encs[i]) := by
    simp
  obtain ⟨hpos, hfit, hsize, hbytes⟩ := hv (encs[i]) (List.getElem_mem h)
  have htake4 : (slotContent m (encs[i])).take 4 = toBytesBE 4 (encs[i]).length := by
    rw [slotContent, List.append_assoc]
    exact List.take_left' (toBytesBE_length 4 _)
  have hdrop4 : (slotContent m (encs[i])).drop 4
      = encs[i] ++ List.replicate (m - ((encs[i]).length + 4)) 0 := by
    rw [slotContent, List.append_assoc]
    exact List.drop_left' (toBytesBE_length 4 _)
  simp only [unpackItem]
  rw [hslot, hgetmap, htake4, fromBytesBE_toBytesBE 4 _ hsize, if_pos hpos, hdrop4]
  rw [List.take_left]

theorem flatten_map_singleton {α : Type} (l : List α) :
    (l.map (fun a => [a])).flatten = l := by
  induction l with
  | nil => rfl
  | cons x xs ih => simp [ih]

theorem all_gather_list_ok (m : Nat) (encs : List (List Nat))
    (hv : ∀ e ∈ encs,
      0 < e.length ∧ e.length + 4 ≤ m ∧ e.length < 256 ^ 4 ∧ ∀ b ∈ e, b < 256) :
    all_gather_list m encs = Except.ok encs := by
  have h1 : (encs.any fun enc => decide (m < enc.length + 4)) = false := by
    rw [List.any_eq_false]
    intro e he
    simp only [decide_eq_true_eq]
    have := (hv e he).2.1
    omega
  have h2 : (encs.any fun enc => decide (256 ^ 4 ≤ enc.length)) = false := by
    rw [List.any_eq_false]
    intro e he
    simp only [decide_eq_true_eq]
    have := (hv e he).2.2.1
    omega
  unfold all_gather_list
  rw [if_neg (by rw [h1]; simp), if_neg (by rw [h2]; simp)]
  show Except.ok (unpackLoop m encs.length
      ((rankBuffersFrom m encs.length 0 encs).foldl addBytes
        (List.replicate (m * encs.length) 0)))
    = Except.ok encs
  have hbuf : (rankBuffersFrom m encs.length 0 encs).foldl addBytes
      (List.replicate (m * encs.length) 0) = (encs.map (slotContent m)).flatten := by
    have hred := reduce_aux m encs 0 [] (by simp) (by simp)
      (fun e he => ⟨(hv e he).2.1, (hv e he).2.2.2⟩)
    simpa [Nat.mul_comm] using hred
  rw [hbuf, unpackLoop_eq]
  have hmapeq : (List.range encs.length).map
        (unpackItem m ((encs.map (slotContent m)).flatten))
      = encs.map (fun e => [e]) := by
    apply List.ext_getElem
    · simp
    · intro n h1' h2'
      have hn : n < encs.length := by simpa using h1'
      rw [List.getElem_map, List.getElem_range, List.getElem_map,
        unpackItem_slot m encs n hn hv]
  rw [hmapeq, flatten_map_singleton]

/-- Claim C1, amended: for every world size and every family of inputs
whose pickled encodings have lengths `s_r` with `s_r + 4 ≤ max_size` and
`s_r < 256 ^ 4` (pickled encodings are nonempty byte strings),
`all_gather_list` — with the all-reduce as element-wise byte sum over the
zero-initialized buffers, each rank writing only its own slot — returns
the contributed data in rank order on every rank: packing each payload as
a 4-byte size header plus the pickled bytes and unpacking every slot
reconstructs exactly what each worker contributed. -/
theorem all_gather_list_gathers {α : Type} (enc_f : α → List Nat) (dec : List Nat → α)
    (datas : List α) (max_size : Nat)
    (hround : ∀ d ∈ datas, dec (enc_f d) = d)
    (hsizes : ∀ d ∈ datas,
      0 < (enc_f d).length ∧ (enc_f d).length + 4 ≤ max_size ∧
        (enc_f d).length < 256 ^ 4 ∧ ∀ b ∈ enc_f d, b < 256) :
    all_gather_list_data dec max_size (datas.map enc_f) = Except.ok datas := by
  have hok := all_gather_list_ok max_size (datas.map enc_f) (by
    intro e he
    rw [List.mem_map] at he
    obtain ⟨d, hd, rfl⟩ := he
    exact hsizes d hd)
  unfold all_gather_list_data
  rw [hok]
  simp only [Except.map]
  rw [List.map_map]
  have hcong : ∀ d ∈ datas, (dec ∘ enc_f) d = d := fun d hd => hround d hd
  rw [List.map_congr_left hcong]
  rw [List.map_id' datas]

/-- Witness for the amended C1: two workers, payloads `[3]` and `[7]`
under a one-byte codec, slot size 10. -/
theorem all_gather_list_gathers_witness :
    (∀ d ∈ [(3 : Nat), 7], (fun bs : List Nat => bs.headD 0) ((fun n : Nat => [n % 256]) d) = d) ∧
    (∀ d ∈ [(3 : Nat), 7],
      0 < ((fun n : Nat => [n % 256]) d).length ∧
        ((fun n : Nat => [n % 256]) d).length + 4 ≤ 10 ∧
        ((fun n : Nat => [n % 256]) d).length < 256 ^ 4 ∧
        ∀ b ∈ (fun n : Nat => [n % 256]) d, b < 256) ∧
    all_gather_list_data (fun bs : List Nat => bs.headD 0) 10
        ([(3 : Nat), 7].map fun n => [n % 256])
      = Except.ok [3, 7] :=
  ⟨by decide, by decide,
   all_gather_list_gathers (fun n => [n % 256]) (fun bs => bs.headD 0) [3, 7] 10
     (by decide) (by decide)⟩

/-- Counterexample to C1 exactly as stated: with `max_size = 256 ^ 4 + 8`
and a single worker whose pickled payload has length `256 ^ 4` — so that
`s_0 + 4 ≤ max_size` holds — `all_gather_list` does not return the data:
the `assert enc_size < 256 ** 4` fails instead, because the payload length
does not fit the 4-byte size header. -/
theorem all_gather_list_claim_counterexample :
    (∀ d ∈ [List.replicate (256 ^ 4) (0 : Nat)],
      (fun bs : List Nat => bs) ((fun bs : List Nat => bs) d) = d) ∧
    (∀ d ∈ [List.replicate (256 ^ 4) (0 : Nat)],
      0 < ((fun bs : List Nat => bs) d).length ∧
        ((fun bs : List Nat => bs) d).length + 4 ≤ 256 ^ 4 + 8 ∧
        ∀ b ∈ (fun bs : List Nat => bs) d, b < 256) ∧
    all_gather_list_data (fun bs : List Nat => bs) (256 ^ 4 + 8)
        ([List.replicate (256 ^ 4) (0 : Nat)].map fun bs => bs)
      ≠ Except.ok [List.replicate (256 ^ 4) (0 : Nat)] := by
  have hpow : (256 : Nat) ^ 4 = 4294967296 := by norm_num
  refine ⟨by intro d _; rfl, ?_, ?_⟩
  · intro d hd
    rw [List.mem_singleton] at hd
    subst hd
    refine ⟨?_, ?_, ?_⟩
    · show 0 < (List.replicate (256 ^ 4) (0 : Nat)).length
      rw [List.length_replicate, hpow]
      omega
    · show (List.replicate (256 ^ 4) (0 : Nat)).length + 4 ≤ 256 ^ 4 + 8
      rw [List.length_replicate]
      omega
    · intro b hb
      rcases (List.mem_replicate.mp hb) with ⟨_, rfl⟩
      omega
  · have hc1 : (List.any [List.replicate (256 ^ 4) (0 : Nat)]
        fun enc => decide (256 ^ 4 + 8 < enc.length + 4)) = false := by
      rw [List.any_cons, List.any_nil, Bool.or_false, List.length_replicate,
        decide_eq_false_iff_not]
      omega
    have hc2 : (List.any [List.replicate (256 ^ 4) (0 : Nat)]
        fun enc => decide (256 ^ 4 ≤ enc.length)) = true := by
      rw [List.any_cons, List.any_nil, Bool.or_false, List.length_replicate,
        decide_eq_true_eq]
    have herr : all_gather_list (256 ^ 4 + 8) [List.replicate (256 ^ 4) (0 : Nat)]
        = Except.error "AssertionError" := by
      unfold all_gather_list
      rw [if_neg (by rw [hc1]; exact Bool.false_ne_true), if_pos hc2]
    rw [List.map_id']
    unfold all_gather_list_data
    rw [herr]
    intro hc
    exact Except.noConfusion hc
